import Mathlib

/-!
Verification of the aspect-rs pointcut engine and advice pipeline.

The Rust sources are embedded shallowly:

* Rust `&str` values are modelled as `List Char`.  Rust indexes strings by
  UTF-8 **byte** offsets and panics when a slice boundary is not a character
  boundary, so byte-indexed slicing is modelled by the partial functions
  `byteTake` / `byteDrop` (`none` models the panic).
* `aspect-core/src/pointcut/{ast,pattern,parser,matcher}.rs` become the
  `Pointcut` AST, the pattern types, `parse_pointcut` (with a fuel parameter
  to make the recursion structural; `parse_fuel_congr` shows any sufficient
  fuel gives the same answer) and the `matches` functions.
* `aspect-runtime/src/registry.rs` becomes a pure registry state
  (`register`, `find_matching`, `apply_aspects`), with effects of advice
  modelled in a trace monad `Comp` (a state monad over an event log).
-/

namespace AspectRs

/-! ## Rust string model -/

/-- Unicode `White_Space` test, as used by Rust `char::is_whitespace`. -/
def rustIsWhitespace (c : Char) : Bool :=
  decide ((9 ≤ c.toNat ∧ c.toNat ≤ 13) ∨ c.toNat = 32 ∨ c.toNat = 0x85 ∨
    c.toNat = 0xA0 ∨ c.toNat = 0x1680 ∨ (0x2000 ≤ c.toNat ∧ c.toNat ≤ 0x200A) ∨
    c.toNat = 0x2028 ∨ c.toNat = 0x2029 ∨ c.toNat = 0x202F ∨ c.toNat = 0x205F ∨
    c.toNat = 0x3000)

/-- Model of `str::trim_start`. -/
def ltrim (s : List Char) : List Char := s.dropWhile rustIsWhitespace

/-- Model of `str::trim_end`. -/
def rtrim (s : List Char) : List Char := (s.reverse.dropWhile rustIsWhitespace).reverse

/-- Model of `str::trim`: strip whitespace from both ends. -/
def trim (s : List Char) : List Char := rtrim (ltrim s)

/-- Split a string at UTF-8 byte offset `b`.  Returns `none` when `b` is out
of range or not a character boundary — exactly the cases where Rust byte
slicing panics. -/
def byteSplit : List Char → Nat → Option (List Char × List Char)
  | s, 0 => some ([], s)
  | [], _ + 1 => none
  | c :: rest, b + 1 =>
    if c.utf8Size ≤ b + 1 then
      (byteSplit rest (b + 1 - c.utf8Size)).map (fun p => (c :: p.1, p.2))
    else none

/-- Rust `&s[..b]` (panic modelled as `none`). -/
def byteTake (s : List Char) (b : Nat) : Option (List Char) :=
  (byteSplit s b).map Prod.fst

/-- Rust `&s[b..]` (panic modelled as `none`). -/
def byteDrop (s : List Char) (b : Nat) : Option (List Char) :=
  (byteSplit s b).map Prod.snd

/-- Model of `str::starts_with(char)`. -/
def startsWithChar (s : List Char) (c : Char) : Bool :=
  match s with
  | [] => false
  | d :: _ => d == c

/-- Model of `str::ends_with(char)`. -/
def endsWithChar (s : List Char) (c : Char) : Bool :=
  s.getLast? == some c

/-! ## Pattern types (`aspect-core/src/pointcut/pattern.rs`) -/

/-- Model of `NamePattern`: function-name matching rule. -/
inductive NamePattern where
  | wildcard
  | exact (s : List Char)
  | prefixPat (s : List Char)
  | suffixPat (s : List Char)
  | containsPat (s : List Char)
deriving DecidableEq

/-- Model of `Visibility`: required visibility class. -/
inductive Visibility where
  | Public
  | Crate
  | Super
  | Private
deriving DecidableEq

/-- Model of `ExecutionPattern`: full function-signature rule. -/
structure ExecutionPattern where
  visibility : Option Visibility
  name : NamePattern
  return_type : Option (List Char)
deriving DecidableEq

/-- Model of `ModulePattern`: module-path rule. -/
structure ModulePattern where
  path : List Char
deriving DecidableEq

/-! ## Pointcut AST (`aspect-core/src/pointcut/ast.rs`) -/

/-- Model of `Pointcut`: boolean expression over the patterns above. -/
inductive Pointcut where
  | Execution (p : ExecutionPattern)
  | Within (p : ModulePattern)
  | And (l r : Pointcut)
  | Or (l r : Pointcut)
  | Not (p : Pointcut)
deriving DecidableEq

/-! ## Parser (`aspect-core/src/pointcut/parser.rs`)

`parse_pointcut` returns `Result<Pointcut, String>` in Rust; the result type
here has two extra constructors: `panicked` for a Rust panic (out-of-bounds /
non-boundary byte slice) and `fuelOut` for exhaustion of the artificial fuel
(never reached when the fuel exceeds the input length, see
`parse_fuel_congr`). -/

/-- Result of running the parser. -/
inductive PRes where
  | ok (p : Pointcut)
  | err (msg : List Char)
  | panicked
  | fuelOut
deriving DecidableEq

/-- Balance check inside `strip_outer_parens`: scan the inner content,
failing if the depth ever drops below zero, succeeding if it ends at zero. -/
def balancedScan : List Char → Int → Bool
  | [], depth => depth == 0
  | c :: rest, depth =>
    if c == '(' then balancedScan rest (depth + 1)
    else if c == ')' then
      if depth - 1 < 0 then false else balancedScan rest (depth - 1)
    else balancedScan rest depth

/-- Model of `strip_outer_parens`: strip one outer parenthesis pair when it wraps the
whole expression. -/
def strip_outer_parens (input : List Char) : Option (List Char) :=
  if startsWithChar input '(' && endsWithChar input ')' then
    let inner := (input.drop 1).dropLast
    if balancedScan inner 0 then some inner else none
  else none

/-- Scanner of `find_operator`: walk the characters tracking parenthesis
depth; at a depth-0 non-parenthesis character, test whether the operator is
the next run of characters (the source's bounds check plus slice comparison
is exactly "the operator is a prefix of the remaining characters").  The
returned index is a **character** index. -/
def findOpGo (op : List Char) : List Char → Int → Nat → Option Nat
  | [], _, _ => none
  | c :: rest, depth, i =>
    if c == '(' then findOpGo op rest (depth + 1) (i + 1)
    else if c == ')' then findOpGo op rest (depth - 1) (i + 1)
    else if depth == 0 && op.isPrefixOf (c :: rest) then some i
    else findOpGo op rest depth (i + 1)

/-- Model of `find_operator`: first depth-0 occurrence of `op`, as a character index. -/
def find_operator (input op : List Char) : Option Nat :=
  findOpGo op input 0 0

/-- Model of `parse_visibility`: optional leading visibility keyword. -/
def parse_visibility (input : List Char) : Option Visibility × List Char :=
  if ("pub(crate) ".toList).isPrefixOf input then (some Visibility.Crate, input.drop 11)
  else if ("pub(super) ".toList).isPrefixOf input then (some Visibility.Super, input.drop 11)
  else if ("pub ".toList).isPrefixOf input then (some Visibility.Public, input.drop 4)
  else (none, input)

/-- Model of `parse_name_pattern`: classify a name token by its leading/trailing `*`. -/
def parse_name_pattern (name : List Char) : NamePattern :=
  if name == ['*'] then NamePattern.wildcard
  else if startsWithChar name '*' && endsWithChar name '*' && decide (2 < name.length) then
    NamePattern.containsPat ((name.drop 1).dropLast)
  else if startsWithChar name '*' then NamePattern.suffixPat (name.drop 1)
  else if endsWithChar name '*' then NamePattern.prefixPat name.dropLast
  else NamePattern.exact name

/-- Model of `parse_execution`: parse `execution(<vis> fn <name>(..))`. -/
def parse_execution (input : List Char) : PRes :=
  if !(("execution(".toList).isPrefixOf input && endsWithChar input ')') then
    PRes.err ("Invalid execution syntax".toList)
  else
    let content := trim ((input.drop 10).dropLast)
    let visRest := parse_visibility content
    let rest := trim visRest.2
    if !(("fn ".toList).isPrefixOf rest) then
      PRes.err ("Expected fn keyword".toList)
    else
      let rest2 := trim (rest.drop 3)
      if rest2.any (fun c => c == '(') then
        let name := trim (rest2.takeWhile (fun c => c != '('))
        PRes.ok (Pointcut.Execution
          { visibility := visRest.1, name := parse_name_pattern name, return_type := none })
      else
        PRes.err ("Expected function signature".toList)

/-- Model of `parse_within`: parse `within(<module path>)`. -/
def parse_within (input : List Char) : PRes :=
  if !(("within(".toList).isPrefixOf input && endsWithChar input ')') then
    PRes.err ("Invalid within syntax".toList)
  else
    let module_path := trim ((input.drop 7).dropLast)
    PRes.ok (Pointcut.Within { path := module_path })

/-- The `?` operator applied to the recursive call in the `!` branch:
wrap a success in `Not`, propagate anything else. -/
def notWrap : PRes → PRes
  | PRes.ok p => PRes.ok (Pointcut.Not p)
  | e => e

/-- The literal operator token `" || "`. -/
def orOp : List Char := " || ".toList

/-- The literal operator token `" && "`. -/
def andOp : List Char := " && ".toList

/-- The shared shape of the `" || "` / `" && "` branches of `parse_pointcut`:
slice the input at `pos` (the **character** index that `find_operator`
returned, used as a **byte** index, exactly as in the source), parse the
left side, then slice at `pos + 4` and parse the right side.  A failing
slice is a panic; Rust evaluates the left side fully before slicing the
right, so a left-side error suppresses a right-side panic. -/
def parse_binary (f : List Char → PRes) (input : List Char) (pos : Nat)
    (mk : Pointcut → Pointcut → Pointcut) : PRes :=
  match byteTake input pos with
  | none => PRes.panicked
  | some l =>
    match f l with
    | PRes.ok lp =>
      match byteDrop input (pos + 4) with
      | none => PRes.panicked
      | some r =>
        match f r with
        | PRes.ok rp => PRes.ok (mk lp rp)
        | e => e
    | e => e

/-- The primitive branch of `parse_pointcut`: `execution(...)`, `within(...)`,
or the "Unknown pointcut type" error. -/
def parse_prim (input : List Char) : PRes :=
  if ("execution(".toList).isPrefixOf input then parse_execution input
  else if ("within(".toList).isPrefixOf input then parse_within input
  else PRes.err ("Unknown pointcut type: ".toList ++ input)

/-- Model of `parse_pointcut` after the parenthesis-stripping step: the `!` branch,
then the `" || "` branch, then the `" && "` branch, then a primitive. -/
def parse_core_rest (f : List Char → PRes) (input : List Char) : PRes :=
  if startsWithChar input '!' then notWrap (f (trim (input.drop 1)))
  else
    match find_operator input orOp with
    | some or_pos => parse_binary f input or_pos Pointcut.Or
    | none =>
      match find_operator input andOp with
      | some and_pos => parse_binary f input and_pos Pointcut.And
      | none => parse_prim input

/-- The body of `parse_pointcut` after its initial `let input = input.trim()`,
abstracted over the recursive call `f`. -/
def parse_core (f : List Char → PRes) (input : List Char) : PRes :=
  match
    (if startsWithChar input '(' && endsWithChar input ')' then
      strip_outer_parens input
    else none) with
  | some inner => f inner
  | none => parse_core_rest f input

/-- Model of `parse_pointcut` with fuel making the recursion structural
(`parse_fuel_congr` below shows the result does not depend on the fuel once
it exceeds the input length). -/
def parse_fuel : Nat → List Char → PRes
  | 0, _ => PRes.fuelOut
  | n + 1, input0 => parse_core (parse_fuel n) (trim input0)

/-- Model of `parse_pointcut` on a string: run with ample fuel. -/
def parse_pointcut (input : List Char) : PRes :=
  parse_fuel (input.length + 1) input

/-! ## Trim algebra -/

theorem dropWhile_idem {α : Type} (p : α → Bool) (l : List α) :
    (l.dropWhile p).dropWhile p = l.dropWhile p := by
  induction l with
  | nil => rfl
  | cons a l ih =>
    by_cases h : p a
    · simp [List.dropWhile_cons, h, ih]
    · simp [List.dropWhile_cons, h]

theorem ltrim_idem (s : List Char) : ltrim (ltrim s) = ltrim s :=
  dropWhile_idem rustIsWhitespace s

theorem rtrim_idem (s : List Char) : rtrim (rtrim s) = rtrim s := by
  simp [rtrim, List.reverse_reverse, dropWhile_idem]

theorem rtrim_cons (c : Char) (s : List Char) :
    rtrim (c :: s) =
      if rtrim s = [] then (if rustIsWhitespace c then [] else [c]) else c :: rtrim s := by
  have hrev : rtrim s = [] ↔ s.reverse.dropWhile rustIsWhitespace = [] := by
    simp [rtrim, List.reverse_eq_nil_iff]
  by_cases hs : rtrim s = []
  · have h2 : s.reverse.dropWhile rustIsWhitespace = [] := hrev.mp hs
    by_cases hc : rustIsWhitespace c <;>
      simp [rtrim, List.reverse_cons, List.dropWhile_append, h2, hs, hc, List.dropWhile_cons]
  · have h2 : ¬ s.reverse.dropWhile rustIsWhitespace = [] := fun h => hs (hrev.mpr h)
    simp [rtrim, List.reverse_cons, List.dropWhile_append, hs, h2]

theorem rtrim_eq_nil_ltrim {s : List Char} (h : rtrim s = []) : ltrim s = [] := by
  have h1 : s.reverse.dropWhile rustIsWhitespace = [] := by
    simpa [rtrim, List.reverse_eq_nil_iff] using h
  have h2 := List.dropWhile_eq_nil_iff.mp h1
  exact List.dropWhile_eq_nil_iff.mpr (fun x hx => h2 x (List.mem_reverse.mpr hx))

theorem ltrim_cons_of_neg {c : Char} (s : List Char) (h : rustIsWhitespace c = false) :
    ltrim (c :: s) = c :: s := by
  simp [ltrim, List.dropWhile_cons, h]

theorem ltrim_cons_of_pos {c : Char} (s : List Char) (h : rustIsWhitespace c = true) :
    ltrim (c :: s) = ltrim s := by
  simp [ltrim, List.dropWhile_cons, h]

theorem ltrim_rtrim_comm (s : List Char) : ltrim (rtrim s) = rtrim (ltrim s) := by
  induction s with
  | nil => rfl
  | cons c t ih =>
    by_cases hc : rustIsWhitespace c = true
    · rw [rtrim_cons, ltrim_cons_of_pos t hc]
      by_cases ht : rtrim t = []
      · rw [if_pos ht, if_pos hc]
        have hlt : ltrim t = [] := rtrim_eq_nil_ltrim ht
        show ltrim [] = rtrim (ltrim t)
        rw [hlt]
        rfl
      · rw [if_neg ht, ltrim_cons_of_pos _ hc, ih]
    · have hc' : rustIsWhitespace c = false := by
        cases h : rustIsWhitespace c
        · rfl
        · exact absurd h hc
      rw [rtrim_cons, ltrim_cons_of_neg t hc']
      by_cases ht : rtrim t = []
      · rw [if_pos ht, if_neg (by simp [hc']), rtrim_cons, ht, if_pos rfl, if_neg (by simp [hc'])]
        exact ltrim_cons_of_neg [] hc'
      · rw [if_neg ht, ltrim_cons_of_neg _ hc', rtrim_cons, if_neg ht]

theorem trim_rtrim (s : List Char) : trim (rtrim s) = trim s := by
  unfold trim
  rw [ltrim_rtrim_comm, rtrim_idem]

theorem trim_trim (s : List Char) : trim (trim s) = trim s := by
  show trim (rtrim (ltrim s)) = trim s
  rw [trim_rtrim]
  unfold trim
  rw [ltrim_idem]

theorem ltrim_length_le (s : List Char) : (ltrim s).length ≤ s.length := by
  simpa [ltrim] using (List.dropWhile_sublist (l := s) (p := rustIsWhitespace)).length_le

theorem rtrim_length_le (s : List Char) : (rtrim s).length ≤ s.length := by
  have := (List.dropWhile_sublist (l := s.reverse) (p := rustIsWhitespace)).length_le
  simpa [rtrim] using this

theorem trim_length_le (s : List Char) : (trim s).length ≤ s.length :=
  le_trans (rtrim_length_le (ltrim s)) (ltrim_length_le s)

/-! ## Byte-slice and operator-scan facts -/

theorem byteSplit_append :
    ∀ (s : List Char) (b : Nat) (l r : List Char),
      byteSplit s b = some (l, r) → s = l ++ r := by
  intro s
  induction s with
  | nil =>
    intro b l r h
    cases b with
    | zero =>
      simp only [byteSplit, Option.some.injEq, Prod.mk.injEq] at h
      simp [← h.1, ← h.2]
    | succ b => simp [byteSplit] at h
  | cons c rest ih =>
    intro b l r h
    cases b with
    | zero =>
      simp only [byteSplit, Option.some.injEq, Prod.mk.injEq] at h
      simp [← h.1, ← h.2]
    | succ b =>
      simp only [byteSplit] at h
      split at h
      · cases hbs : byteSplit rest (b + 1 - c.utf8Size) with
        | none => rw [hbs] at h; simp at h
        | some p =>
          obtain ⟨p1, p2⟩ := p
          rw [hbs] at h
          simp only [Option.map_some', Option.some.injEq, Prod.mk.injEq] at h
          have hrest := ih _ _ _ hbs
          rw [← h.1, ← h.2]
          simp [hrest]
      · simp at h

theorem byteSplit_fst_length :
    ∀ (s : List Char) (b : Nat) (l r : List Char),
      byteSplit s b = some (l, r) → l.length ≤ b := by
  intro s
  induction s with
  | nil =>
    intro b l r h
    cases b with
    | zero => simp only [byteSplit, Option.some.injEq, Prod.mk.injEq] at h; simp [← h.1]
    | succ b => simp [byteSplit] at h
  | cons c rest ih =>
    intro b l r h
    cases b with
    | zero => simp only [byteSplit, Option.some.injEq, Prod.mk.injEq] at h; simp [← h.1]
    | succ b =>
      simp only [byteSplit] at h
      split at h
      · cases hbs : byteSplit rest (b + 1 - c.utf8Size) with
        | none => rw [hbs] at h; simp at h
        | some p =>
          obtain ⟨p1, p2⟩ := p
          rw [hbs] at h
          simp only [Option.map_some', Option.some.injEq, Prod.mk.injEq] at h
          have hrest := ih _ _ _ hbs
          have hpos := c.utf8Size_pos
          rw [← h.1]
          simp only [List.length_cons]
          omega
      · simp at h

theorem byteSplit_fst_ne_nil :
    ∀ (s : List Char) (b : Nat) (l r : List Char),
      byteSplit s b = some (l, r) → 0 < b → l ≠ [] := by
  intro s
  cases s with
  | nil =>
    intro b l r h hb
    cases b with
    | zero => omega
    | succ b => simp [byteSplit] at h
  | cons c rest =>
    intro b l r h hb
    cases b with
    | zero => omega
    | succ b =>
      simp only [byteSplit] at h
      split at h
      · cases hbs : byteSplit rest (b + 1 - c.utf8Size) with
        | none => rw [hbs] at h; simp at h
        | some p =>
          obtain ⟨p1, p2⟩ := p
          rw [hbs] at h
          simp only [Option.map_some', Option.some.injEq, Prod.mk.injEq] at h
          rw [← h.1]
          simp
      · simp at h

theorem byteTake_length_le {s : List Char} {b : Nat} {l : List Char}
    (h : byteTake s b = some l) : l.length ≤ b := by
  unfold byteTake at h
  cases hbs : byteSplit s b with
  | none => rw [hbs] at h; simp at h
  | some p =>
    rw [hbs] at h
    simp only [Option.map_some', Option.some.injEq] at h
    obtain ⟨p1, p2⟩ := p
    rw [← h]
    exact byteSplit_fst_length s b p1 p2 hbs

theorem byteDrop_length_lt {s : List Char} {b : Nat} {r : List Char}
    (h : byteDrop s b = some r) (hb : 0 < b) : r.length < s.length := by
  unfold byteDrop at h
  cases hbs : byteSplit s b with
  | none => rw [hbs] at h; simp at h
  | some p =>
    rw [hbs] at h
    simp only [Option.map_some', Option.some.injEq] at h
    obtain ⟨p1, p2⟩ := p
    have happ := byteSplit_append s b p1 p2 hbs
    have hne := byteSplit_fst_ne_nil s b p1 p2 hbs hb
    have : 0 < p1.length := List.length_pos.mpr hne
    rw [← h, happ]
    simp only [List.length_append]
    omega

theorem findOpGo_some (op : List Char) :
    ∀ (s : List Char) (d : Int) (i j : Nat),
      findOpGo op s d i = some j → ∃ k, j = i + k ∧ k + op.length ≤ s.length := by
  intro s
  induction s with
  | nil => intro d i j h; simp [findOpGo] at h
  | cons c rest ih =>
    intro d i j h
    simp only [findOpGo] at h
    split at h
    · obtain ⟨k, hk, hl⟩ := ih _ _ _ h
      exact ⟨k + 1, by omega, by simp only [List.length_cons]; omega⟩
    · split at h
      · obtain ⟨k, hk, hl⟩ := ih _ _ _ h
        exact ⟨k + 1, by omega, by simp only [List.length_cons]; omega⟩
      · split at h
        · rename_i hguard
          cases h
          have hpre : op.isPrefixOf (c :: rest) = true := by
            simp only [Bool.and_eq_true] at hguard
            exact hguard.2
          have hp : op <+: (c :: rest) := List.isPrefixOf_iff_prefix.mp hpre
          exact ⟨0, by omega, by simpa using hp.length_le⟩
        · obtain ⟨k, hk, hl⟩ := ih _ _ _ h
          exact ⟨k + 1, by omega, by simp only [List.length_cons]; omega⟩

theorem find_operator_bound {input op : List Char} {j : Nat}
    (h : find_operator input op = some j) : j + op.length ≤ input.length := by
  obtain ⟨k, hk, hl⟩ := findOpGo_some op input 0 0 j h
  omega

theorem strip_outer_parens_some {input inner : List Char}
    (h : strip_outer_parens input = some inner) :
    inner = (input.drop 1).dropLast ∧ input ≠ [] := by
  unfold strip_outer_parens at h
  split at h
  · rename_i hguard
    have h' : (if balancedScan ((input.drop 1).dropLast) 0 = true then
        some ((input.drop 1).dropLast) else none) = some inner := h
    split at h'
    · cases h'
      refine ⟨rfl, ?_⟩
      intro he
      subst he
      simp [startsWithChar] at hguard
    · simp at h'
  · simp at h

/-! ## Fuel adequacy: the parser result is independent of sufficient fuel -/

theorem orOp_length : orOp.length = 4 := rfl

theorem andOp_length : andOp.length = 4 := rfl

theorem parse_binary_congr {f g : List Char → PRes} {input : List Char} {pos : Nat}
    (mk : Pointcut → Pointcut → Pointcut)
    (h : ∀ t, t.length < input.length → f t = g t)
    (hpos : pos + 4 ≤ input.length) :
    parse_binary f input pos mk = parse_binary g input pos mk := by
  unfold parse_binary
  cases hbt : byteTake input pos with
  | none => rfl
  | some l =>
    dsimp only
    have hl : l.length < input.length := by
      have := byteTake_length_le hbt
      omega
    rw [h l hl]
    cases hgl : g l with
    | ok lp =>
      cases hbd : byteDrop input (pos + 4) with
      | none => rfl
      | some r =>
        dsimp only
        have hr : r.length < input.length := byteDrop_length_lt hbd (by omega)
        rw [h r hr]
    | err m => rfl
    | panicked => rfl
    | fuelOut => rfl

theorem parse_core_rest_congr {f g : List Char → PRes} (input : List Char)
    (h : ∀ t, t.length < input.length → f t = g t) :
    parse_core_rest f input = parse_core_rest g input := by
  unfold parse_core_rest
  by_cases hb : startsWithChar input '!' = true
  · rw [if_pos hb, if_pos hb]
    have hne : input ≠ [] := by
      intro he
      subst he
      simp [startsWithChar] at hb
    have hlen : (trim (input.drop 1)).length < input.length := by
      have h1 := trim_length_le (input.drop 1)
      have h2 : 0 < input.length := List.length_pos.mpr hne
      simp only [List.length_drop] at h1
      omega
    rw [h _ hlen]
  · rw [if_neg hb, if_neg hb]
    cases hfo : find_operator input orOp with
    | some or_pos =>
      exact parse_binary_congr Pointcut.Or h
        (by have := find_operator_bound hfo; rwa [orOp_length] at this)
    | none =>
      cases hfa : find_operator input andOp with
      | some and_pos =>
        exact parse_binary_congr Pointcut.And h
          (by have := find_operator_bound hfa; rwa [andOp_length] at this)
      | none => rfl

theorem parse_core_congr {f g : List Char → PRes} (input : List Char)
    (h : ∀ t, t.length < input.length → f t = g t) :
    parse_core f input = parse_core g input := by
  unfold parse_core
  cases hs : (if startsWithChar input '(' && endsWithChar input ')' then
      strip_outer_parens input else none) with
  | some inner =>
    have hstrip : strip_outer_parens input = some inner := by
      by_cases hg : (startsWithChar input '(' && endsWithChar input ')') = true
      · rwa [if_pos hg] at hs
      · rw [if_neg hg] at hs; cases hs
    obtain ⟨hinner, hne⟩ := strip_outer_parens_some hstrip
    have hlen : inner.length < input.length := by
      have hpos : 0 < input.length := List.length_pos.mpr hne
      rw [hinner]
      simp only [List.length_dropLast, List.length_drop]
      omega
    exact h inner hlen
  | none =>
    show parse_core_rest f input = parse_core_rest g input
    exact parse_core_rest_congr input h

theorem parse_fuel_succ (n : Nat) (s : List Char) :
    parse_fuel (n + 1) s = parse_core (parse_fuel n) (trim s) := rfl

theorem parse_fuel_congr :
    ∀ (n m : Nat) (s : List Char),
      s.length < n → s.length < m → parse_fuel n s = parse_fuel m s := by
  intro n
  induction n with
  | zero => intro m s h; omega
  | succ n ih =>
    intro m s hn hm
    cases m with
    | zero => omega
    | succ m =>
      rw [parse_fuel_succ, parse_fuel_succ]
      apply parse_core_congr
      intro t ht
      have hts := trim_length_le s
      exact ih m t (by omega) (by omega)

/-- Model of `parse_pointcut` is invariant under pre-trimming its input (the source
trims first thing). -/
theorem parse_pointcut_trim (s : List Char) :
    parse_pointcut (trim s) = parse_pointcut s := by
  show parse_fuel ((trim s).length + 1) (trim s) = parse_fuel (s.length + 1) s
  rw [parse_fuel_succ, parse_fuel_succ, trim_trim]
  apply parse_core_congr
  intro t ht
  have hts := trim_length_le s
  exact parse_fuel_congr _ _ t (by omega) (by omega)

example :
    parse_pointcut ("execution(pub fn *(..))".toList) =
      PRes.ok (Pointcut.Execution
        { visibility := some Visibility.Public, name := NamePattern.wildcard,
          return_type := none }) := by decide

example :
    parse_pointcut ("within(crate::api)".toList) =
      PRes.ok (Pointcut.Within { path := "crate::api".toList }) := by decide

example :
    parse_pointcut ("!within(crate::internal)".toList) =
      PRes.ok (Pointcut.Not (Pointcut.Within { path := "crate::internal".toList })) := by
  decide

/-! ## The NOT branch recurses on the whole remainder -/

theorem trim_cons_bang (s : List Char) : trim ('!' :: s) = '!' :: rtrim s := by
  unfold trim
  rw [ltrim_cons_of_neg s (by decide), rtrim_cons]
  by_cases ht : rtrim s = []
  · rw [if_pos ht, if_neg (by decide), ht]
  · rw [if_neg ht]

theorem parse_core_bang (f : List Char → PRes) (t : List Char) :
    parse_core f ('!' :: t) = notWrap (f (trim t)) := by
  unfold parse_core
  rw [if_neg (by simp [startsWithChar])]
  show parse_core_rest f ('!' :: t) = notWrap (f (trim t))
  unfold parse_core_rest
  rw [if_pos (by simp [startsWithChar])]
  rfl

theorem bang_whole_remainder (s : List Char) :
    parse_pointcut ('!' :: s) = notWrap (parse_pointcut s) := by
  show parse_fuel (('!' :: s).length + 1) ('!' :: s) = notWrap (parse_pointcut s)
  rw [parse_fuel_succ, trim_cons_bang, parse_core_bang, trim_rtrim]
  have h1 : parse_fuel ('!' :: s).length (trim s) =
      parse_fuel ((trim s).length + 1) (trim s) := by
    have := trim_length_le s
    exact parse_fuel_congr _ _ _ (by simp only [List.length_cons]; omega) (by omega)
  rw [h1]
  show notWrap (parse_pointcut (trim s)) = notWrap (parse_pointcut s)
  rw [parse_pointcut_trim]

/-! ## Name-pattern facts -/

theorem startsWithChar_iff (s : List Char) (c : Char) :
    startsWithChar s c = true ↔ s.head? = some c := by
  cases s <;> simp [startsWithChar]

theorem endsWithChar_iff (s : List Char) (c : Char) :
    endsWithChar s c = true ↔ s.getLast? = some c := by
  simp [endsWithChar]

/-- Invariant satisfied by every name pattern the parser actually builds:
`Prefix`, `Suffix` and `Contains` carry non-empty payloads (`Exact` may be
empty — see the counterexample for C8). -/
def npOk : NamePattern → Bool
  | NamePattern.wildcard => true
  | NamePattern.exact _ => true
  | NamePattern.prefixPat s => decide (s ≠ [])
  | NamePattern.suffixPat s => decide (s ≠ [])
  | NamePattern.containsPat s => decide (s ≠ [])

/-- The invariant as the spec states it: every payload non-empty except
`Wildcard`, including `Exact`. -/
def npOkStrict : NamePattern → Bool
  | NamePattern.wildcard => true
  | NamePattern.exact s => decide (s ≠ [])
  | NamePattern.prefixPat s => decide (s ≠ [])
  | NamePattern.suffixPat s => decide (s ≠ [])
  | NamePattern.containsPat s => decide (s ≠ [])

/-- Model of `npOk` at every `Execution` node of a pointcut. -/
def npInv : Pointcut → Bool
  | Pointcut.Execution p => npOk p.name
  | Pointcut.Within _ => true
  | Pointcut.And l r => npInv l && npInv r
  | Pointcut.Or l r => npInv l && npInv r
  | Pointcut.Not p => npInv p

/-- Model of `npOkStrict` at every `Execution` node of a pointcut. -/
def npInvStrict : Pointcut → Bool
  | Pointcut.Execution p => npOkStrict p.name
  | Pointcut.Within _ => true
  | Pointcut.And l r => npInvStrict l && npInvStrict r
  | Pointcut.Or l r => npInvStrict l && npInvStrict r
  | Pointcut.Not p => npInvStrict p

theorem parse_name_pattern_ok (name : List Char) :
    npOk (parse_name_pattern name) = true := by
  unfold parse_name_pattern
  split
  · rfl
  · rename_i h1
    have h1' : ¬ name = ['*'] := by simpa using h1
    split
    · rename_i h2
      simp only [Bool.and_eq_true, decide_eq_true_eq] at h2
      have hlen : 2 < name.length := h2.2
      simp only [npOk, decide_eq_true_eq]
      intro hnil
      have := congrArg List.length hnil
      simp only [List.length_dropLast, List.length_drop, List.length_nil] at this
      omega
    · rename_i h2
      split
      · rename_i h3
        cases name with
        | nil => simp [startsWithChar] at h3
        | cons c t =>
          simp only [startsWithChar, beq_iff_eq] at h3
          subst h3
          simp only [npOk, List.drop_succ_cons, List.drop_zero, decide_eq_true_eq]
          intro ht
          subst ht
          exact h1' rfl
      · rename_i h3
        split
        · rename_i h4
          rw [endsWithChar_iff] at h4
          simp only [npOk, decide_eq_true_eq]
          intro hd
          have hne : name ≠ [] := by
            intro he
            subst he
            simp at h4
          have hlen : name.length ≤ 1 := by
            have := congrArg List.length hd
            simp only [List.length_dropLast, List.length_nil] at this
            omega
          have hone : name.length = 1 := by
            have := List.length_pos.mpr hne
            omega
          obtain ⟨a, ha⟩ := List.length_eq_one.mp hone
          subst ha
          simp only [List.getLast?_singleton, Option.some.injEq] at h4
          subst h4
          exact h1' rfl
        · rfl

/-! ## Non-empty-payload invariant through the whole parser -/

theorem parse_execution_inv {input : List Char} {p : Pointcut}
    (hp : parse_execution input = PRes.ok p) : npInv p = true := by
  unfold parse_execution at hp
  split at hp
  · simp at hp
  · dsimp only at hp
    split at hp
    · simp at hp
    · split at hp
      · cases hp
        simp only [npInv]
        exact parse_name_pattern_ok _
      · simp at hp

theorem parse_within_inv {input : List Char} {p : Pointcut}
    (hp : parse_within input = PRes.ok p) : npInv p = true := by
  unfold parse_within at hp
  split at hp
  · simp at hp
  · cases hp
    rfl

theorem parse_prim_inv {input : List Char} {p : Pointcut}
    (hp : parse_prim input = PRes.ok p) : npInv p = true := by
  unfold parse_prim at hp
  split at hp
  · exact parse_execution_inv hp
  · split at hp
    · exact parse_within_inv hp
    · simp at hp

theorem parse_binary_inv {f : List Char → PRes} {input : List Char} {pos : Nat}
    {mk : Pointcut → Pointcut → Pointcut} {p : Pointcut}
    (hf : ∀ t q, f t = PRes.ok q → npInv q = true)
    (hmk : ∀ a b, npInv a = true → npInv b = true → npInv (mk a b) = true)
    (hp : parse_binary f input pos mk = PRes.ok p) : npInv p = true := by
  unfold parse_binary at hp
  cases hbt : byteTake input pos with
  | none => rw [hbt] at hp; simp at hp
  | some l =>
    rw [hbt] at hp
    dsimp only at hp
    cases hfl : f l with
    | ok lp =>
      rw [hfl] at hp
      dsimp only at hp
      cases hbd : byteDrop input (pos + 4) with
      | none => rw [hbd] at hp; simp at hp
      | some r =>
        rw [hbd] at hp
        dsimp only at hp
        cases hfr : f r with
        | ok rp =>
          rw [hfr] at hp
          cases hp
          exact hmk lp rp (hf l lp hfl) (hf r rp hfr)
        | err m => rw [hfr] at hp; simp at hp
        | panicked => rw [hfr] at hp; simp at hp
        | fuelOut => rw [hfr] at hp; simp at hp
    | err m => rw [hfl] at hp; simp at hp
    | panicked => rw [hfl] at hp; simp at hp
    | fuelOut => rw [hfl] at hp; simp at hp

theorem parse_core_rest_inv {f : List Char → PRes} {input : List Char} {p : Pointcut}
    (hf : ∀ t q, f t = PRes.ok q → npInv q = true)
    (hp : parse_core_rest f input = PRes.ok p) : npInv p = true := by
  unfold parse_core_rest at hp
  split at hp
  · unfold notWrap at hp
    split at hp
    · rename_i q hq
      cases hp
      simp only [npInv]
      exact hf _ q hq
    · rename_i e hne
      exact absurd hp (hne p)
  · cases hfo : find_operator input orOp with
    | some or_pos =>
      rw [hfo] at hp
      exact parse_binary_inv hf
        (fun a b ha hb => by simp [npInv, ha, hb]) hp
    | none =>
      rw [hfo] at hp
      dsimp only at hp
      cases hfa : find_operator input andOp with
      | some and_pos =>
        rw [hfa] at hp
        exact parse_binary_inv hf
          (fun a b ha hb => by simp [npInv, ha, hb]) hp
      | none =>
        rw [hfa] at hp
        exact parse_prim_inv hp

theorem parse_core_inv {f : List Char → PRes} {input : List Char} {p : Pointcut}
    (hf : ∀ t q, f t = PRes.ok q → npInv q = true)
    (hp : parse_core f input = PRes.ok p) : npInv p = true := by
  unfold parse_core at hp
  cases hs : (if startsWithChar input '(' && endsWithChar input ')' then
      strip_outer_parens input else none) with
  | some inner =>
    rw [hs] at hp
    exact hf _ _ hp
  | none =>
    rw [hs] at hp
    exact parse_core_rest_inv hf hp

theorem parse_fuel_inv :
    ∀ (n : Nat) (s : List Char) (p : Pointcut),
      parse_fuel n s = PRes.ok p → npInv p = true := by
  intro n
  induction n with
  | zero => intro s p hp; simp [parse_fuel] at hp
  | succ n ih =>
    intro s p hp
    rw [parse_fuel_succ] at hp
    exact parse_core_inv (fun t q h => ih t q h) hp

/-! ## Claim theorems for the parser -/

/-- Claim C4: (code bug): `parse_pointcut` is specified never to panic on any
input, but `find_operator` returns a **character** index that the caller
uses as a **byte** index.  On `"é || within(a)"` the operator is found at
character index 1, while byte offset 1 falls inside the two-byte character
`é`, so the slice `&input[..or_pos]` panics.  The second and third
conjuncts exhibit the mechanism. -/
theorem c4_parse_pointcut_panics :
    parse_pointcut ("é || within(a)".toList) = PRes.panicked ∧
    find_operator ("é || within(a)".toList) orOp = some 1 ∧
    byteTake ("é || within(a)".toList) 1 = none := by decide

/-- Claim C5:: `&&` binds tighter than `||`, and parentheses override this:
the two example strings from the spec parse to
`Or(Execution(a), And(Execution(b), Within(m)))` and
`And(Or(Execution(a), Within(m)), Within(n))` respectively. -/
theorem c5_precedence_and_grouping :
    parse_pointcut ("execution(fn a(..)) || execution(fn b(..)) && within(m)".toList) =
      PRes.ok (Pointcut.Or
        (Pointcut.Execution ⟨none, NamePattern.exact ("a".toList), none⟩)
        (Pointcut.And (Pointcut.Execution ⟨none, NamePattern.exact ("b".toList), none⟩)
          (Pointcut.Within ⟨"m".toList⟩))) ∧
    parse_pointcut ("(execution(fn a(..)) || within(m)) && within(n)".toList) =
      PRes.ok (Pointcut.And
        (Pointcut.Or (Pointcut.Execution ⟨none, NamePattern.exact ("a".toList), none⟩)
          (Pointcut.Within ⟨"m".toList⟩))
        (Pointcut.Within ⟨"n".toList⟩)) := by decide

/-- Claim C6:: an input beginning with `!` makes the parser recurse on the
entire remainder and wrap the result in `Not` (first conjunct, for every
input), so `"!within(a) && within(b)"` parses as
`Not(And(Within(a), Within(b)))` and not as
`And(Not(Within(a)), Within(b))` (second and third conjuncts). -/
theorem c6_not_binds_whole_remainder :
    (∀ s : List Char, parse_pointcut ('!' :: s) = notWrap (parse_pointcut s)) ∧
    parse_pointcut ("!within(a) && within(b)".toList) =
      PRes.ok (Pointcut.Not (Pointcut.And (Pointcut.Within ⟨"a".toList⟩)
        (Pointcut.Within ⟨"b".toList⟩))) ∧
    parse_pointcut ("!within(a) && within(b)".toList) ≠
      PRes.ok (Pointcut.And (Pointcut.Not (Pointcut.Within ⟨"a".toList⟩))
        (Pointcut.Within ⟨"b".toList⟩)) :=
  ⟨bang_whole_remainder, by decide, by decide⟩

/-- Claim C7: (counterexample): the token `"**"` has both a leading and a
trailing `*` and is not the bare token `"*"`, yet the parser classifies it
as `Suffix("*")`, not as `Contains` of its (empty) middle — the `Contains`
branch additionally requires length `> 2`. -/
theorem c7_counterexample :
    startsWithChar ("**".toList) '*' = true ∧
    endsWithChar ("**".toList) '*' = true ∧
    ("**".toList) ≠ ("*".toList) ∧
    parse_name_pattern ("**".toList) = NamePattern.suffixPat ("*".toList) ∧
    parse_name_pattern ("**".toList) ≠ NamePattern.containsPat [] ∧
    parse_pointcut ("execution(fn **(..))".toList) =
      PRes.ok (Pointcut.Execution
        ⟨none, NamePattern.suffixPat ("*".toList), none⟩) := by decide

/-- Claim C7: (amended): the classification of a name token, with the guard
the code actually uses: `Contains` requires a leading `*`, a trailing `*`
**and length at least 3**; otherwise a leading `*` gives `Suffix`, a
trailing `*` gives `Prefix`, the bare `*` gives `Wildcard`, and anything
else gives `Exact`. -/
theorem c7_amended_classification (name : List Char) :
    parse_name_pattern name =
      (if name = ['*'] then NamePattern.wildcard
       else if name.head? = some '*' ∧ name.getLast? = some '*' ∧ 3 ≤ name.length then
         NamePattern.containsPat ((name.drop 1).dropLast)
       else if name.head? = some '*' then NamePattern.suffixPat (name.drop 1)
       else if name.getLast? = some '*' then NamePattern.prefixPat name.dropLast
       else NamePattern.exact name) := by
  unfold parse_name_pattern
  by_cases h1 : name = ['*']
  · rw [if_pos (by simp [h1]), if_pos h1]
  · rw [if_neg (by simpa using h1), if_neg h1]
    by_cases h2 : name.head? = some '*' ∧ name.getLast? = some '*' ∧ 3 ≤ name.length
    · have hc2 : (startsWithChar name '*' && endsWithChar name '*' &&
          decide (2 < name.length)) = true := by
        simp only [Bool.and_eq_true, startsWithChar_iff, endsWithChar_iff, decide_eq_true_eq]
        exact ⟨⟨h2.1, h2.2.1⟩, by omega⟩
      rw [if_pos hc2, if_pos h2]
    · have hc2 : ¬ ((startsWithChar name '*' && endsWithChar name '*' &&
          decide (2 < name.length)) = true) := by
        simp only [Bool.and_eq_true, startsWithChar_iff, endsWithChar_iff, decide_eq_true_eq]
        rintro ⟨⟨a, b⟩, c⟩
        exact h2 ⟨a, b, by omega⟩
      rw [if_neg hc2, if_neg h2]
      by_cases h3 : name.head? = some '*'
      · rw [if_pos ((startsWithChar_iff name '*').mpr h3), if_pos h3]
      · rw [if_neg (fun h => h3 ((startsWithChar_iff name '*').mp h)), if_neg h3]
        by_cases h4 : name.getLast? = some '*'
        · rw [if_pos ((endsWithChar_iff name '*').mpr h4), if_pos h4]
        · rw [if_neg (fun h => h4 ((endsWithChar_iff name '*').mp h)), if_neg h4]

/-- Claim C8: (counterexample): parsing can succeed with an **empty** `Exact`
payload: in `execution(fn ((..))` the name token is empty, and the parser
returns `Exact("")`, violating the stated "string payload non-empty except
Wildcard" invariant. -/
theorem c8_counterexample :
    parse_pointcut ("execution(fn ((..))".toList) =
      PRes.ok (Pointcut.Execution ⟨none, NamePattern.exact [], none⟩) ∧
    npInvStrict (Pointcut.Execution ⟨none, NamePattern.exact [], none⟩) = false := by
  decide

/-- Claim C8: (amended): every name pattern produced by a successful
`parse_pointcut` is `Wildcard`, an `Exact` (possibly empty), or carries a
non-empty payload — `Prefix`, `Suffix` and `Contains` never hold the empty
string. -/
theorem c8_nonempty_payloads (s : List Char) (p : Pointcut)
    (hp : parse_pointcut s = PRes.ok p) : npInv p = true :=
  parse_fuel_inv _ s p hp

/-- Witness for C8 at a concrete input. -/
theorem c8_nonempty_payloads_witness :
    npInv (Pointcut.Execution
      ⟨some Visibility.Public, NamePattern.prefixPat ("save".toList), none⟩) = true :=
  c8_nonempty_payloads ("execution(pub fn save*(..))".toList)
    (Pointcut.Execution ⟨some Visibility.Public, NamePattern.prefixPat ("save".toList), none⟩)
    (by decide)

/-! ## Matcher (`aspect-core/src/pointcut/matcher.rs`) -/

/-- Model of `FunctionInfo`: descriptor of one function, supplied by the extractor. -/
structure FunctionInfo where
  name : List Char
  module_path : List Char
  visibility : List Char
  return_type : Option (List Char)

/-- Rust `str::contains(&str)`: substring test. -/
def isSubstring : List Char → List Char → Bool
  | need, [] => need.isPrefixOf []
  | need, c :: t => need.isPrefixOf (c :: t) || isSubstring need t

/-- Model of `NamePattern::matches`. -/
def NamePattern.matches : NamePattern → List Char → Bool
  | NamePattern.wildcard, _ => true
  | NamePattern.exact expected, name => name == expected
  | NamePattern.prefixPat p, name => p.isPrefixOf name
  | NamePattern.suffixPat p, name => p.isSuffixOf name
  | NamePattern.containsPat p, name => isSubstring p name

/-- Model of `Visibility::matches`: exact mapping to the literal textual tags. -/
def Visibility.matches : Visibility → List Char → Bool
  | Visibility.Public, vis => vis == "pub".toList
  | Visibility.Crate, vis => vis == "pub(crate)".toList
  | Visibility.Super, vis => vis == "pub(super)".toList
  | Visibility.Private, vis => vis == []

/-- Model of `ModulePattern::matches_path`: exact path or submodule
(`path + "::"` prefix). -/
def ModulePattern.matches_path (p : ModulePattern) (module_path : List Char) : Bool :=
  module_path == p.path || (p.path ++ "::".toList).isPrefixOf module_path

/-- Model of `ExecutionPattern::matches` (`Matcher for ExecutionPattern`). -/
def ExecutionPattern.matches (p : ExecutionPattern) (f : FunctionInfo) : Bool :=
  (match p.visibility with
   | some vis => vis.matches f.visibility
   | none => true) &&
  p.name.matches f.name &&
  (match p.return_type with
   | some expected =>
     match f.return_type with
     | some actual => isSubstring expected actual
     | none => false
   | none => true)

/-- Model of `Matcher for Pointcut`: pure recursive evaluation. -/
def Pointcut.matches : Pointcut → FunctionInfo → Bool
  | Pointcut.Execution p, f => p.matches f
  | Pointcut.Within p, f => p.matches_path f.module_path
  | Pointcut.And l r, f => l.matches f && r.matches f
  | Pointcut.Or l r, f => l.matches f || r.matches f
  | Pointcut.Not p, f => !(p.matches f)

/-! ## JoinPoint, continuation and advice
(`aspect-core/src/{joinpoint,aspect,error}.rs`)

Advice bodies are effectful in Rust; effects are modelled in a trace monad
`Comp α := List Event → List Event × α` (a state monad over an event log),
which makes "this hook ran exactly once, at this point" an equation about
the final log.  `Box<dyn Any>` is modelled by the opaque `AnyBox`; a boxed
`dyn Error` source inside `AspectError` is modelled by an opaque
identifier. -/

/-- Observable advice events (instrumentation, not part of the source). -/
inductive Event where
  | beforeE
  | afterE
  | afterErrorE
  | proceedE
deriving DecidableEq

/-- Effectful computation: state monad over the event log. -/
def Comp (α : Type) : Type := List Event → List Event × α

/-- Model of `AspectError` from `aspect-core/src/error.rs`. -/
inductive AspectError where
  | ExecutionError (message : List Char) (source : Option Nat)
  | WeavingError (message : List Char)
  | Custom (e : Nat)
deriving DecidableEq

/-- Opaque stand-in for `Box<dyn Any>`. -/
structure AnyBox where
  tag : Nat
  payload : Nat
deriving DecidableEq

/-- Model of `Result<Box<dyn Any>, AspectError>`. -/
def Res : Type := Except AspectError AnyBox

/-- Model of `Location`: source location carried by a joinpoint. -/
structure Location where
  file : List Char
  line : Nat
deriving DecidableEq

/-- Model of `JoinPoint`: per-invocation context. -/
structure JoinPoint where
  function_name : List Char
  module_path : List Char
  location : Location
deriving DecidableEq

/-- Model of `ProceedingJoinPoint`: the single-use continuation (an owned `FnOnce`
producing a `Result`) together with its `JoinPoint` context. -/
structure ProceedingJoinPoint where
  inner : Comp Res
  context : JoinPoint

/-- Model of `ProceedingJoinPoint::proceed`: consume the continuation. -/
def ProceedingJoinPoint.proceed (p : ProceedingJoinPoint) : Comp Res := p.inner

/-- The three overridable non-around hooks of an `Aspect` (each defaults to
a no-op in the source; here they are arbitrary effectful functions). -/
structure AspectHooks where
  before : JoinPoint → Comp Unit
  after : JoinPoint → AnyBox → Comp Unit
  after_error : JoinPoint → AspectError → Comp Unit

/-- The default `Aspect::around`: clone the context, call `before`, consume
the continuation, then depending on success/failure call `after` or
`after_error`, and return the continuation's result unchanged. -/
def defaultAround (a : AspectHooks) (pjp : ProceedingJoinPoint) : Comp Res :=
  fun log =>
    let ctx := pjp.context
    let r1 := a.before ctx log
    let r2 := pjp.proceed r1.1
    match r2.2 with
    | Except.ok value => ((a.after ctx value r2.1).1, Except.ok value)
    | Except.error e => ((a.after_error ctx e r2.1).1, Except.error e)

/-! ## Registry (`aspect-runtime/src/registry.rs`) -/

/-- Model of `RegisteredAspect`.  The `Arc<dyn Aspect>` handle is represented by the
only operation `apply_aspects` ever invokes on it: its `around` method (for
an aspect that does not override `around`, this is `defaultAround` of its
hooks). -/
structure RegisteredAspect where
  around : ProceedingJoinPoint → Comp Res
  pointcut : Pointcut
  order : Int
  name : Option (List Char)

/-- Stable insertion used to model `sort_by_key`: the new element goes
after every element whose key is `≤` its own. -/
def insertByOrder (x : RegisteredAspect) : List RegisteredAspect → List RegisteredAspect
  | [] => [x]
  | y :: ys => if y.order ≤ x.order then y :: insertByOrder x ys else x :: y :: ys

/-- Stable sort by ascending `order` (Rust's `sort_by_key` is stable;
any stable sort computes the same list, here an insertion sort). -/
def sortByOrder (l : List RegisteredAspect) : List RegisteredAspect :=
  l.foldl (fun acc x => insertByOrder x acc) []

/-- Model of `AspectRegistry::register`: append the new registration, then re-sort
the whole table by ascending `order`. -/
def register (table : List RegisteredAspect) (r : RegisteredAspect) :
    List RegisteredAspect :=
  sortByOrder (table ++ [r])

/-- A whole sequence of `register` calls against a fresh registry. -/
def registerAll (rs : List RegisteredAspect) : List RegisteredAspect :=
  rs.foldl register []

/-- Model of `AspectRegistry::find_matching`: filter to the registrations whose
pointcut matches, preserving table order. -/
def find_matching (table : List RegisteredAspect) (f : FunctionInfo) :
    List RegisteredAspect :=
  table.filter (fun reg => reg.pointcut.matches f)

/-- Model of `AspectRegistry::count`. -/
def count (table : List RegisteredAspect) : Nat :=
  table.length

/-- Helper `function_info_to_joinpoint`: name and module path come from the
descriptor, the location is the placeholder `"unknown":0`. -/
def function_info_to_joinpoint (info : FunctionInfo) : JoinPoint :=
  { function_name := info.name
    module_path := info.module_path
    location := { file := "unknown".toList, line := 0 } }

/-- The wrapping loop of `apply_aspects`: walk the matches in reverse,
each step producing a new continuation that invokes that aspect's `around`
on the previous continuation, with a fresh joinpoint from
`function_info_to_joinpoint`. -/
def buildChain (function : FunctionInfo) (matching : List RegisteredAspect)
    (pjp : ProceedingJoinPoint) : ProceedingJoinPoint :=
  matching.reverse.foldl
    (fun acc reg =>
      { inner := reg.around acc
        context := function_info_to_joinpoint function })
    pjp

/-- Model of `AspectRegistry::apply_aspects`: resolve matches; with none, consume the
continuation directly; otherwise consume the fully wrapped chain. -/
def apply_aspects (table : List RegisteredAspect) (function : FunctionInfo)
    (pjp : ProceedingJoinPoint) : Comp Res :=
  let matching := find_matching table function
  if matching.isEmpty then pjp.proceed
  else (buildChain function matching pjp).proceed

/-- The same chain, written as the nested composition it produces: the head
of the match list (lowest priority) is the outermost wrapper, and the
original continuation sits innermost. -/
def wrapAspects (function : FunctionInfo) :
    List RegisteredAspect → ProceedingJoinPoint → ProceedingJoinPoint
  | [], pjp => pjp
  | reg :: rest, pjp =>
    { inner := reg.around (wrapAspects function rest pjp)
      context := function_info_to_joinpoint function }

/-- Registry operations as a state machine over the registration table
(the `RwLock`-protected `Vec<RegisteredAspect>`). -/
inductive RegistryOp where
  | registerOp (r : RegisteredAspect)
  | findMatchingOp (f : FunctionInfo)
  | countOp
  | clearOp

/-- Output of one registry operation. -/
inductive RegistryOut where
  | unitOut
  | listOut (l : List RegisteredAspect)
  | natOut (n : Nat)

/-- One step of the registry state machine: `register` and `clear` write
the table, `find_matching` and `count` only read it. -/
def runOp : RegistryOp → List RegisteredAspect → List RegisteredAspect × RegistryOut
  | RegistryOp.registerOp r, t => (register t r, RegistryOut.unitOut)
  | RegistryOp.findMatchingOp f, t => (t, RegistryOut.listOut (find_matching t f))
  | RegistryOp.countOp, t => (t, RegistryOut.natOut (count t))
  | RegistryOp.clearOp, _ => ([], RegistryOut.unitOut)

/-! ## Stable-sort lemmas for the registry -/

theorem mem_insertByOrder {z x : RegisteredAspect} :
    ∀ {l : List RegisteredAspect}, z ∈ insertByOrder x l ↔ z = x ∨ z ∈ l := by
  intro l
  induction l with
  | nil => simp [insertByOrder]
  | cons y ys ih =>
    unfold insertByOrder
    split
    · simp only [List.mem_cons, ih]
      tauto
    · simp only [List.mem_cons]

theorem insertByOrder_pairwise {x : RegisteredAspect} :
    ∀ {l : List RegisteredAspect},
      l.Pairwise (fun a b => a.order ≤ b.order) →
      (insertByOrder x l).Pairwise (fun a b => a.order ≤ b.order) := by
  intro l
  induction l with
  | nil => intro _; simp [insertByOrder]
  | cons y ys ih =>
    intro h
    rw [List.pairwise_cons] at h
    obtain ⟨h1, h2⟩ := h
    unfold insertByOrder
    split
    · rename_i hle
      rw [List.pairwise_cons]
      refine ⟨?_, ih h2⟩
      intro z hz
      rcases mem_insertByOrder.mp hz with rfl | hz'
      · exact hle
      · exact h1 z hz'
    · rename_i hgt
      rw [List.pairwise_cons]
      refine ⟨?_, List.pairwise_cons.mpr ⟨h1, h2⟩⟩
      intro z hz
      rcases List.mem_cons.mp hz with rfl | hz'
      · omega
      · have := h1 z hz'
        omega

theorem sortByOrder_pairwise (l : List RegisteredAspect) :
    (sortByOrder l).Pairwise (fun a b => a.order ≤ b.order) := by
  have main : ∀ (l acc : List RegisteredAspect),
      acc.Pairwise (fun a b => a.order ≤ b.order) →
      (l.foldl (fun acc x => insertByOrder x acc) acc).Pairwise
        (fun a b => a.order ≤ b.order) := by
    intro l
    induction l with
    | nil => intro acc h; simpa using h
    | cons x xs ih =>
      intro acc h
      simp only [List.foldl_cons]
      exact ih _ (insertByOrder_pairwise h)
  exact main l [] (by simp)

theorem filter_order_eq_nil {m : List RegisteredAspect} {p : Int}
    (h : ∀ z ∈ m, p < z.order) : m.filter (fun r => r.order == p) = [] := by
  induction m with
  | nil => rfl
  | cons y ys ih =>
    have hy : (y.order == p) = false := by
      have := h y (by simp)
      simp only [beq_eq_false_iff_ne, ne_eq]
      omega
    rw [List.filter_cons]
    simp only [hy, Bool.false_eq_true, if_false]
    exact ih (fun z hz => h z (by simp [hz]))

theorem filter_insertByOrder {x : RegisteredAspect} {p : Int} :
    ∀ {l : List RegisteredAspect},
      l.Pairwise (fun a b => a.order ≤ b.order) →
      (insertByOrder x l).filter (fun r => r.order == p) =
        (if x.order == p then l.filter (fun r => r.order == p) ++ [x]
         else l.filter (fun r => r.order == p)) := by
  intro l
  induction l with
  | nil =>
    intro _
    simp only [insertByOrder, List.filter_nil]
    cases hxp : (x.order == p) <;> simp [List.filter_cons, hxp]
  | cons y ys ih =>
    intro h
    rw [List.pairwise_cons] at h
    obtain ⟨h1, h2⟩ := h
    unfold insertByOrder
    split
    · rename_i hle
      rw [List.filter_cons, ih h2, List.filter_cons]
      cases hyp : (y.order == p) <;> cases hxp : (x.order == p) <;> simp [hyp, hxp]
    · rename_i hgt
      rw [List.filter_cons]
      cases hxp : (x.order == p)
      · simp [hxp]
      · have hxp' : x.order = p := by simpa using hxp
        have hnil : (y :: ys).filter (fun r => r.order == p) = [] := by
          apply filter_order_eq_nil
          intro z hz
          rcases List.mem_cons.mp hz with rfl | hz'
          · omega
          · have := h1 z hz'
            omega
        simp [hxp, hnil]

theorem insertByOrder_all_le {x : RegisteredAspect} :
    ∀ {l : List RegisteredAspect}, (∀ z ∈ l, z.order ≤ x.order) →
      insertByOrder x l = l ++ [x] := by
  intro l
  induction l with
  | nil => intro _; rfl
  | cons y ys ih =>
    intro h
    unfold insertByOrder
    rw [if_pos (h y (by simp)), ih (fun z hz => h z (by simp [hz]))]
    rfl

theorem sortByOrder_of_pairwise :
    ∀ {l : List RegisteredAspect}, l.Pairwise (fun a b => a.order ≤ b.order) →
      sortByOrder l = l := by
  have main : ∀ (l acc : List RegisteredAspect),
      (acc ++ l).Pairwise (fun a b => a.order ≤ b.order) →
      l.foldl (fun acc x => insertByOrder x acc) acc = acc ++ l := by
    intro l
    induction l with
    | nil => intro acc _; simp
    | cons x xs ih =>
      intro acc h
      simp only [List.foldl_cons]
      have hsplit := List.pairwise_append.mp h
      have hacc : ∀ z ∈ acc, z.order ≤ x.order := fun z hz =>
        hsplit.2.2 z hz x (by simp)
      rw [insertByOrder_all_le hacc]
      have h2 : ((acc ++ [x]) ++ xs).Pairwise (fun a b => a.order ≤ b.order) := by
        simpa [List.append_assoc] using h
      rw [ih (acc ++ [x]) h2]
      simp
  intro l h
  simpa using main l [] (by simpa using h)

theorem register_of_pairwise {t : List RegisteredAspect} {r : RegisteredAspect}
    (h : t.Pairwise (fun a b => a.order ≤ b.order)) :
    register t r = insertByOrder r t := by
  unfold register sortByOrder
  rw [List.foldl_append]
  simp only [List.foldl_cons, List.foldl_nil]
  rw [show t.foldl (fun acc x => insertByOrder x acc) [] = t from
    sortByOrder_of_pairwise h]

theorem registerAll_spec (rs : List RegisteredAspect) :
    (registerAll rs).Pairwise (fun a b => a.order ≤ b.order) ∧
    ∀ p : Int, (registerAll rs).filter (fun r => r.order == p) =
      rs.filter (fun r => r.order == p) := by
  have main : ∀ (rs t : List RegisteredAspect),
      t.Pairwise (fun a b => a.order ≤ b.order) →
      (rs.foldl register t).Pairwise (fun a b => a.order ≤ b.order) ∧
      ∀ p : Int, (rs.foldl register t).filter (fun r => r.order == p) =
        t.filter (fun r => r.order == p) ++ rs.filter (fun r => r.order == p) := by
    intro rs
    induction rs with
    | nil => intro t h; exact ⟨h, fun p => by simp⟩
    | cons r rest ih =>
      intro t h
      simp only [List.foldl_cons]
      have hreg : register t r = insertByOrder r t := register_of_pairwise h
      have hpair : (register t r).Pairwise (fun a b => a.order ≤ b.order) := by
        rw [hreg]
        exact insertByOrder_pairwise h
      obtain ⟨ihp, ihf⟩ := ih (register t r) hpair
      refine ⟨ihp, fun p => ?_⟩
      rw [ihf p, hreg, filter_insertByOrder h, List.filter_cons]
      cases hrp : (r.order == p) <;> simp [hrp]
  obtain ⟨h1, h2⟩ := main rs [] (by simp)
  exact ⟨h1, fun p => by simpa using h2 p⟩

/-! ## Chain-shape lemma for `apply_aspects` -/

theorem buildChain_eq_wrapAspects (function : FunctionInfo) :
    ∀ (matching : List RegisteredAspect) (pjp : ProceedingJoinPoint),
      buildChain function matching pjp = wrapAspects function matching pjp := by
  intro matching
  induction matching with
  | nil => intro pjp; rfl
  | cons reg rest ih =>
    intro pjp
    unfold buildChain
    rw [List.reverse_cons, List.foldl_append]
    simp only [List.foldl_cons, List.foldl_nil]
    have hrw : rest.reverse.foldl
        (fun acc reg =>
          ({ inner := reg.around acc
             context := function_info_to_joinpoint function } : ProceedingJoinPoint))
        pjp = buildChain function rest pjp := rfl
    rw [hrw, ih pjp]
    rfl

/-! ## Advice instrumentation for the default `around` -/

/-- Append one event to the log. -/
def emit (e : Event) : Comp Unit := fun log => (log ++ [e], ())

/-- Hooks that only record their own invocation. -/
def logHooks : AspectHooks where
  before := fun _ => emit Event.beforeE
  after := fun _ _ => emit Event.afterE
  after_error := fun _ _ => emit Event.afterErrorE

/-- A continuation that records that it ran, then produces `r`. -/
def probeCont (r : Res) : Comp Res := fun log => (log ++ [Event.proceedE], r)

/-! ## Claim theorems for the registry and advice pipeline -/

/-- Claim C1:: with zero matches `apply_aspects` consumes the continuation
directly; with matches, the chain it consumes is the nested composition in
which the head of the match list (the lowest priority, since the table is
kept sorted — see C3) is the outermost `around`, each `around` receives the
continuation of everything nested inside it, and the innermost continuation
is the original one. -/
theorem c1_apply_aspects_composition (table : List RegisteredAspect)
    (function : FunctionInfo) (pjp : ProceedingJoinPoint) :
    apply_aspects table function pjp =
      (match find_matching table function with
       | [] => pjp.proceed
       | m :: ms => (wrapAspects function (m :: ms) pjp).proceed) ∧
    wrapAspects function [] pjp = pjp ∧
    ∀ (reg : RegisteredAspect) (rest : List RegisteredAspect),
      wrapAspects function (reg :: rest) pjp =
        { inner := reg.around (wrapAspects function rest pjp)
          context := function_info_to_joinpoint function } := by
  refine ⟨?_, rfl, fun reg rest => rfl⟩
  show (if (find_matching table function).isEmpty = true then pjp.proceed
      else (buildChain function (find_matching table function) pjp).proceed) = _
  cases hm : find_matching table function with
  | nil => rfl
  | cons m ms =>
    rw [if_neg (by simp), buildChain_eq_wrapAspects]

/-- Claim C2:: the default `around` first runs `before`, then consumes the
continuation exactly once, then — depending on the continuation's result —
runs exactly one of `after` / `after_error`, and returns the result
unchanged.  First conjunct: for an arbitrary continuation `k`, the final
log is: the log as of the `before` event, then whatever `k` appended, then
the single success/failure event; the value is `k`'s value unchanged.
Second conjunct: the resulting trace for the probe continuation. -/
theorem c2_default_around_composition (jp : JoinPoint) :
    (∀ (k : Comp Res) (log : List Event),
      defaultAround logHooks { inner := k, context := jp } log =
        ((k (log ++ [Event.beforeE])).1 ++
          [match (k (log ++ [Event.beforeE])).2 with
           | Except.ok _ => Event.afterE
           | Except.error _ => Event.afterErrorE],
         (k (log ++ [Event.beforeE])).2)) ∧
    (∀ (r : Res) (log : List Event),
      defaultAround logHooks { inner := probeCont r, context := jp } log =
        (log ++ [Event.beforeE, Event.proceedE,
          match r with
          | Except.ok _ => Event.afterE
          | Except.error _ => Event.afterErrorE], r)) := by
  have hmain : ∀ (k : Comp Res) (log : List Event),
      defaultAround logHooks { inner := k, context := jp } log =
        ((k (log ++ [Event.beforeE])).1 ++
          [match (k (log ++ [Event.beforeE])).2 with
           | Except.ok _ => Event.afterE
           | Except.error _ => Event.afterErrorE],
         (k (log ++ [Event.beforeE])).2) := by
    intro k log
    unfold defaultAround ProceedingJoinPoint.proceed
    dsimp only [logHooks, emit]
    rcases hk : k (log ++ [Event.beforeE]) with ⟨l2, r2⟩
    cases r2 <;> rfl
  refine ⟨hmain, fun r log => ?_⟩
  rw [hmain (probeCont r) log]
  cases r <;> simp [probeCont]

/-- Claim C3:: after any sequence of `register` calls the table is sorted by
ascending priority; registrations of equal priority keep their registration
order (the per-priority sublists are exactly those of the registration
sequence); `find_matching` is the order-preserving filter of the table by
pointcut match, and its output is therefore also in ascending priority
order. -/
theorem c3_register_sorted_stable (rs : List RegisteredAspect) (f : FunctionInfo) :
    (registerAll rs).Pairwise (fun a b => a.order ≤ b.order) ∧
    (∀ p : Int, (registerAll rs).filter (fun r => r.order == p) =
      rs.filter (fun r => r.order == p)) ∧
    find_matching (registerAll rs) f =
      (registerAll rs).filter (fun reg => reg.pointcut.matches f) ∧
    (find_matching (registerAll rs) f).Pairwise (fun a b => a.order ≤ b.order) := by
  obtain ⟨h1, h2⟩ := registerAll_spec rs
  exact ⟨h1, h2, rfl, List.Pairwise.sublist (List.filter_sublist _) h1⟩

/-- Claim C9:: the joinpoint `apply_aspects` builds for the wrappers carries
the descriptor's name and module path but always the placeholder location
`"unknown":0`; every continuation the wrapping loop constructs (the chain
for any non-empty suffix of the match list) carries exactly this
joinpoint. -/
theorem c9_joinpoint_placeholder (info : FunctionInfo) :
    function_info_to_joinpoint info =
      { function_name := info.name
        module_path := info.module_path
        location := { file := "unknown".toList, line := 0 } } ∧
    ∀ (reg : RegisteredAspect) (rest : List RegisteredAspect)
      (pjp : ProceedingJoinPoint),
      (buildChain info (reg :: rest) pjp).context = function_info_to_joinpoint info := by
  refine ⟨rfl, fun reg rest pjp => ?_⟩
  rw [buildChain_eq_wrapAspects]
  rfl

/-- Claim C10:: `find_matching` and `count` are pure reads of the registry
state machine: they return the table unchanged (same registrations, order,
priorities and names), together with the filter result resp. the length. -/
theorem c10_reads_leave_table_unchanged (table : List RegisteredAspect)
    (f : FunctionInfo) :
    runOp (RegistryOp.findMatchingOp f) table =
      (table, RegistryOut.listOut (find_matching table f)) ∧
    runOp RegistryOp.countOp table = (table, RegistryOut.natOut (count table)) ∧
    (runOp (RegistryOp.findMatchingOp f) table).1 = table ∧
    (runOp RegistryOp.countOp table).1 = table :=
  ⟨rfl, rfl, rfl, rfl⟩

/-! ## Concrete registry scenario (the spec's registration-order example) -/

/-- A pointcut matching every function. -/
def demoPointcut : Pointcut := Pointcut.Execution ⟨none, NamePattern.wildcard, none⟩

/-- An around that just proceeds. -/
def demoAround : ProceedingJoinPoint → Comp Res := fun pjp => pjp.proceed

/-- A demo registration with the given priority and name. -/
def demoReg (n : Int) (nm : List Char) : RegisteredAspect :=
  { around := demoAround, pointcut := demoPointcut, order := n, name := some nm }

/-- A demo function descriptor. -/
def demoFn : FunctionInfo :=
  { name := "test_func".toList, module_path := "test::module".toList,
    visibility := "pub".toList, return_type := none }

example :
    (registerAll [demoReg 20 ("second".toList), demoReg 10 ("first".toList)]).map
      (fun r => r.order) = [10, 20] := rfl

example :
    (find_matching
        (registerAll [demoReg 20 ("second".toList), demoReg 10 ("first".toList)])
        demoFn).map (fun r => r.name) =
      [some ("first".toList), some ("second".toList)] := rfl

end AspectRs
